import Mathlib

/-!
Verification of the ruby-references analyzer: a shallow embedding of the
per-file parsing pipeline (AST collector, self-reference filter, location
mapping), the content-addressed cache, the constant-resolver construction
and the reference builder, with theorems settling the specification claims.
-/

namespace RubyRefs

/-- Source span, mirroring `Range` in src/src/parser/mod.rs. -/
structure Range where
  start_row : Nat
  start_col : Nat
  end_row : Nat
  end_col : Nat
deriving DecidableEq, Repr

/-- Mirrors `UnresolvedReference` in src/src/parser/mod.rs. -/
structure UnresolvedReference where
  name : String
  namespace_path : List String
  location : Range
deriving DecidableEq, Repr

/-- Mirrors `ParsedDefinition` in src/src/parser/mod.rs. -/
structure ParsedDefinition where
  fully_qualified_name : String
  location : Range
deriving DecidableEq, Repr

/-- Mirrors `ProcessedFile` in src/src/parser/mod.rs (absolute paths as strings). -/
structure ProcessedFile where
  absolute_path : String
  unresolved_references : List UnresolvedReference
deriving DecidableEq, Repr

/-- Mirrors `SourceLocation` in src/src/parser/mod.rs. -/
structure SourceLocation where
  line : Nat
  column : Nat
deriving DecidableEq, Repr

/-! ## Self-reference filter (src/src/parser/self_reference_filterer.rs) -/

/-- Split a character list on the separator `::`, leftmost-first, mirroring
Rust `str::split("::")` (kernel-reducible replacement for `String.splitOn`). -/
def splitDCAux : List Char → List (List Char)
  | [] => [[]]
  | ':' :: ':' :: rest => [] :: splitDCAux rest
  | c :: rest =>
      match splitDCAux rest with
      | h :: t => (c :: h) :: t
      | [] => [[c]]

/-- Mirrors Rust `fully_qualified_name.split("::").collect()`. -/
def splitDoubleColon (s : String) : List String :=
  (splitDCAux s.toList).map (fun cs => String.mk cs)

/-- Rust `parts[..=index].join("::")` on `fully_qualified_name.split("::")`:
the keys contributed by one definition to the definition-to-location map. -/
def prefixKeys (fqn : String) : List String :=
  let parts := splitDoubleColon fqn
  (List.range parts.length).map (fun i => String.intercalate "::" (parts.take (i + 1)))

/-- Insert into an association list only when the key is absent
(mirrors the `contains_key` guard in `definition_to_location_map`). -/
def mapInsertIfAbsent (m : List (String × Range)) (k : String) (v : Range) :
    List (String × Range) :=
  if m.any (fun p => p.1 == k) then m else m ++ [(k, v)]

/-- Mirrors `definition_to_location_map`: for each definition, insert every
`::`-prefix of its fully qualified name, first insertion winning. -/
def definition_to_location_map (definitions : List ParsedDefinition) :
    List (String × Range) :=
  definitions.foldl
    (fun m d => (prefixKeys d.fully_qualified_name).foldl
      (fun m k => mapInsertIfAbsent m k d.location) m)
    []

/-- Association-list lookup (mirrors `HashMap::get`). -/
def mapGet (m : List (String × Range)) (k : String) : Option Range :=
  (m.find? (fun p => p.1 == k)).map (fun p => p.2)

/-- Modelled from the spec: `namespace_calculator::possible_fully_qualified_constants`
is declared in src/src/parser/mod.rs but its file is missing from src.  Per spec
section 4.2: for k = len(ns) down to 0, candidate `"::" + join(ns[..k] + [name], "::")`. -/
def possible_fully_qualified_constants (namespace_path : List String) (name : String) :
    List String :=
  ((List.range (namespace_path.length + 1)).reverse).map
    (fun k => "::" ++ String.intercalate "::" (namespace_path.take k ++ [name]))

/-- Lookup of one candidate, with the `::`-prefixed fallback the filter performs:
`definition_to_location_map.get(c).or(get(format!("::{}", c)))`. -/
def candidateLookup (m : List (String × Range)) (c : String) : Option Range :=
  (mapGet m c).orElse (fun _ => mapGet m ("::" ++ c))

/-- The per-reference decision loop of `filter`: `should_ignore_local_reference`
is overwritten by every matching candidate; the reference is kept when the flag
ends up false. -/
def keepDecision (m : List (String × Range)) (r : UnresolvedReference) : Bool :=
  let possible_constants := possible_fully_qualified_constants r.namespace_path r.name
  let should_ignore := possible_constants.foldl
    (fun b c =>
      match candidateLookup m c with
      | some location =>
          !(location.start_row == r.location.start_row
            && location.start_col == r.location.start_col)
      | none => b)
    false
  !should_ignore

/-- Mirrors `self_reference_filterer::filter` on a collector's outputs. -/
def selfReferenceFilter (references : List UnresolvedReference)
    (definitions : List ParsedDefinition) : List UnresolvedReference :=
  let m := definition_to_location_map definitions
  references.filter (fun r => keepDecision m r)

/-- The gate in `process_from_contents` (src/src/references/parser/processor.rs
lines 109-113): with `include_reference_is_definition` the collector's references
are returned unfiltered, otherwise the self-reference filter runs. -/
def unresolvedReferencesOf (include_reference_is_definition : Bool)
    (references : List UnresolvedReference) (definitions : List ParsedDefinition) :
    List UnresolvedReference :=
  if include_reference_is_definition then references
  else selfReferenceFilter references definitions

/-- The candidate locations that match, in candidate order. -/
def matchedLocations (m : List (String × Range)) (r : UnresolvedReference) :
    List Range :=
  (possible_fully_qualified_constants r.namespace_path r.name).filterMap
    (fun c => candidateLookup m c)

theorem getLast?_cons_getD {α : Type} (a : α) (l : List α) :
    (a :: l).getLast? = some ((l.getLast?).getD a) := by
  induction l generalizing a with
  | nil => rfl
  | cons b t ih =>
      rw [List.getLast?_cons_cons, ih b]
      rfl

theorem ignoreFold_last (m : List (String × Range)) (rloc : Range)
    (cs : List String) (b : Bool) :
    cs.foldl
      (fun b c =>
        match candidateLookup m c with
        | some location =>
            !(location.start_row == rloc.start_row
              && location.start_col == rloc.start_col)
        | none => b) b =
      match (cs.filterMap (fun c => candidateLookup m c)).getLast? with
      | none => b
      | some location =>
          !(location.start_row == rloc.start_row
            && location.start_col == rloc.start_col) := by
  induction cs generalizing b with
  | nil => simp
  | cons c cs ih =>
      simp only [List.foldl_cons, List.filterMap_cons]
      cases h : candidateLookup m c with
      | none => simpa using ih b
      | some loc =>
          simp only []
          rw [ih, getLast?_cons_getD]
          cases hls : (cs.filterMap (fun c => candidateLookup m c)).getLast? with
          | none => simp
          | some l3 => simp

/-- The fold in `keepDecision` is decided by the last matching candidate. -/
theorem keepDecision_last_match (m : List (String × Range)) (r : UnresolvedReference) :
    keepDecision m r =
      match (matchedLocations m r).getLast? with
      | none => true
      | some location =>
          (location.start_row == r.location.start_row
            && location.start_col == r.location.start_col) := by
  simp only [keepDecision, matchedLocations]
  rw [ignoreFold_last m r.location _ false]
  cases (possible_fully_qualified_constants r.namespace_path r.name).filterMap
      (fun c => candidateLookup m c) |>.getLast? with
  | none => rfl
  | some loc => simp

/-- Projection of a range onto the fields the filter actually compares. -/
def startsOf (r : Range) : Nat × Nat := (r.start_row, r.start_col)

/-- Projection of a map entry onto key and start coordinates. -/
def entryProj (p : String × Range) : String × Nat × Nat := (p.1, startsOf p.2)

theorem anyMapGeneral {α β : Type} (f : α → β) (l : List α) (p : β → Bool) :
    (l.map f).any p = l.any (fun a => p (f a)) := by
  induction l with
  | nil => rfl
  | cons a t ih => simp [List.any_cons, ih]

theorem mapGet_proj_congr (m m' : List (String × Range))
    (h : m.map entryProj = m'.map entryProj) (k : String) :
    (mapGet m k).map startsOf = (mapGet m' k).map startsOf := by
  induction m generalizing m' with
  | nil =>
      cases m' with
      | nil => rfl
      | cons p t => simp [List.map] at h
  | cons p t ih =>
      cases m' with
      | nil => simp [List.map] at h
      | cons q s =>
          simp only [List.map_cons, List.cons.injEq] at h
          obtain ⟨h1, h2⟩ := h
          obtain ⟨hk, hs⟩ : p.1 = q.1 ∧ startsOf p.2 = startsOf q.2 := by
            simpa [entryProj, Prod.ext_iff] using h1
          unfold mapGet
          by_cases hpk : p.1 == k
          · simp [List.find?, hpk, hk ▸ hpk, hs]
          · have hqk : (q.1 == k) = false := by
              rw [← hk]; exact Bool.eq_false_iff.mpr hpk
            have hpf : (p.1 == k) = false := Bool.eq_false_iff.mpr hpk
            simp only [List.find?, hpf, hqk]
            exact ih s h2

theorem candidateLookup_proj_congr (m m' : List (String × Range))
    (h : m.map entryProj = m'.map entryProj) (c : String) :
    (candidateLookup m c).map startsOf = (candidateLookup m' c).map startsOf := by
  unfold candidateLookup
  have h1 := mapGet_proj_congr m m' h c
  have h2 := mapGet_proj_congr m m' h ("::" ++ c)
  cases e1 : mapGet m c with
  | some v =>
      rw [e1] at h1
      cases e1' : mapGet m' c with
      | some w => simpa [e1', Option.orElse] using h1
      | none => rw [e1'] at h1; simp at h1
  | none =>
      rw [e1] at h1
      cases e1' : mapGet m' c with
      | some w => rw [e1'] at h1; simp at h1
      | none => simpa [e1', Option.orElse] using h2

theorem keepDecision_proj_congr (m m' : List (String × Range))
    (h : m.map entryProj = m'.map entryProj) (r : UnresolvedReference) :
    keepDecision m r = keepDecision m' r := by
  simp only [keepDecision]
  congr 1
  generalize possible_fully_qualified_constants r.namespace_path r.name = cs
  have hgen : ∀ (b : Bool),
      cs.foldl (fun b c => match candidateLookup m c with
        | some location => !(location.start_row == r.location.start_row
            && location.start_col == r.location.start_col)
        | none => b) b
      = cs.foldl (fun b c => match candidateLookup m' c with
        | some location => !(location.start_row == r.location.start_row
            && location.start_col == r.location.start_col)
        | none => b) b := by
    induction cs with
    | nil => intro b; rfl
    | cons c cs ih =>
        intro b
        simp only [List.foldl_cons]
        have hc := candidateLookup_proj_congr m m' h c
        cases e : candidateLookup m c with
        | some v =>
            rw [e] at hc
            cases e' : candidateLookup m' c with
            | some w =>
                rw [e'] at hc
                obtain ⟨hrow, hcol⟩ : v.start_row = w.start_row
                    ∧ v.start_col = w.start_col := by
                  simpa [startsOf, Prod.ext_iff] using hc
                show List.foldl _
                    (!(v.start_row == r.location.start_row
                       && v.start_col == r.location.start_col)) cs
                  = List.foldl _
                    (!(w.start_row == r.location.start_row
                       && w.start_col == r.location.start_col)) cs
                rw [hrow, hcol]
                exact ih _
            | none => rw [e'] at hc; simp at hc
        | none =>
            rw [e] at hc
            cases e' : candidateLookup m' c with
            | some w => rw [e'] at hc; simp at hc
            | none => exact ih b
  exact hgen false

theorem mapInsertIfAbsent_proj (m m' : List (String × Range))
    (h : m.map entryProj = m'.map entryProj) (k : String) (v v' : Range)
    (hv : startsOf v = startsOf v') :
    (mapInsertIfAbsent m k v).map entryProj = (mapInsertIfAbsent m' k v').map entryProj := by
  unfold mapInsertIfAbsent
  have hany : m.any (fun p => p.1 == k) = m'.any (fun p => p.1 == k) := by
    have hthis : (m.map entryProj).any (fun p => p.1 == k)
        = (m'.map entryProj).any (fun p => p.1 == k) := by rw [h]
    rw [anyMapGeneral, anyMapGeneral] at hthis
    simpa [entryProj] using hthis
  rw [hany]
  by_cases hb : m'.any (fun p => p.1 == k)
  · simp [hb, h]
  · simp only [Bool.not_eq_true] at hb
    simp [hb, h, entryProj, hv]

theorem definition_map_proj_congr (defs : List ParsedDefinition)
    (g : ParsedDefinition → Nat × Nat) :
    (definition_to_location_map (defs.map (fun d =>
        ⟨d.fully_qualified_name,
         ⟨d.location.start_row, d.location.start_col, (g d).1, (g d).2⟩⟩))).map entryProj
      = (definition_to_location_map defs).map entryProj := by
  unfold definition_to_location_map
  rw [List.foldl_map]
  suffices hgen : ∀ (acc acc' : List (String × Range)),
      acc.map entryProj = acc'.map entryProj →
      (defs.foldl (fun m d => (prefixKeys d.fully_qualified_name).foldl
          (fun m k => mapInsertIfAbsent m k
            (⟨d.location.start_row, d.location.start_col, (g d).1, (g d).2⟩ : Range)) m) acc).map entryProj
        = (defs.foldl (fun m d => (prefixKeys d.fully_qualified_name).foldl
          (fun m k => mapInsertIfAbsent m k d.location) m) acc').map entryProj by
    exact hgen [] [] rfl
  induction defs with
  | nil => intro acc acc' h; simpa using h
  | cons d ds ih =>
      intro acc acc' h
      simp only [List.foldl_cons]
      apply ih
      generalize prefixKeys d.fully_qualified_name = ks
      induction ks generalizing acc acc' with
      | nil => simpa using h
      | cons k kt ihk =>
          simp only [List.foldl_cons]
          apply ihk
          exact mapInsertIfAbsent_proj acc acc' h k _ _ rfl

/-- The reference used in the concrete single-definition scenario. -/
def selfRefScenarioRef : UnresolvedReference :=
  ⟨"::Foo", [], ⟨1, 6, 1, 9⟩⟩

/-- The definition used in the concrete single-definition scenario. -/
def selfRefScenarioDef : ParsedDefinition :=
  ⟨"::Foo", ⟨1, 6, 1, 9⟩⟩

/-- C1 is false on the code: a reference whose candidate fully qualified
target matches a definition at a location entirely different from the
reference's location is dropped by the filter, not kept, because the last
matching candidate had a different start position.  Concretely, reference
`Foo` (empty nesting) at rows 2 is dropped when `::Foo` is defined at row 1. -/
theorem c1_counterexample :
    "::Foo" ∈ possible_fully_qualified_constants ([] : List String) "Foo"
      ∧ candidateLookup
          (definition_to_location_map [⟨"::Foo", ⟨1, 6, 1, 9⟩⟩]) "::Foo"
          = some ⟨1, 6, 1, 9⟩
      ∧ (⟨1, 6, 1, 9⟩ : Range) ≠ (⟨2, 5, 2, 8⟩ : Range)
      ∧ selfReferenceFilter [⟨"Foo", [], ⟨2, 5, 2, 8⟩⟩] [⟨"::Foo", ⟨1, 6, 1, 9⟩⟩] = [] := by
  refine ⟨by decide, by decide, by decide, by decide⟩

/-- C1 (amended): with `include_reference_is_definition = true` the references
pass through unfiltered; with the default configuration a reference is kept
exactly when either no candidate fully qualified target matches a definition,
or the LAST matching candidate's definition location has the same start row and
start column as the reference's location (references whose last matching
candidate lies elsewhere are dropped).  In particular, for a file whose only
reference is at the same span as its sole definition, the default configuration
yields one reference, and with `include_reference_is_definition = true` it also
yields one. -/
theorem c1_amended_filter_semantics :
    (∀ refs defs, unresolvedReferencesOf true refs defs = refs)
      ∧ (∀ refs defs,
          unresolvedReferencesOf false refs defs =
            refs.filter (fun r =>
              match (matchedLocations (definition_to_location_map defs) r).getLast? with
              | none => true
              | some location =>
                  location.start_row == r.location.start_row
                    && location.start_col == r.location.start_col))
      ∧ unresolvedReferencesOf false [selfRefScenarioRef] [selfRefScenarioDef]
          = [selfRefScenarioRef]
      ∧ unresolvedReferencesOf true [selfRefScenarioRef] [selfRefScenarioDef]
          = [selfRefScenarioRef] := by
  refine ⟨fun refs defs => rfl, fun refs defs => ?_, by decide, by decide⟩
  unfold unresolvedReferencesOf selfReferenceFilter
  simp only [if_neg (Bool.false_ne_true)]
  exact List.filter_congr (fun r _ => keepDecision_last_match _ r)

/-- C10: the self-reference filter compares a definition location with a
reference location only on `start_row` and `start_col` (replacing every
definition's end coordinates arbitrarily leaves the output unchanged), and when
several candidate fully qualified names of one reference match definitions the
keep/drop decision is overwritten by each match, so the last matching candidate
in candidate order alone decides whether the reference is kept. -/
theorem c10_filter_start_only_last_match :
    (∀ (refs : List UnresolvedReference) (defs : List ParsedDefinition)
        (g : ParsedDefinition → Nat × Nat),
        selfReferenceFilter refs (defs.map (fun d =>
          ⟨d.fully_qualified_name,
           ⟨d.location.start_row, d.location.start_col, (g d).1, (g d).2⟩⟩))
          = selfReferenceFilter refs defs)
      ∧ (∀ m r, keepDecision m r =
          match (matchedLocations m r).getLast? with
          | none => true
          | some location =>
              location.start_row == r.location.start_row
                && location.start_col == r.location.start_col) := by
  constructor
  · intro refs defs g
    unfold selfReferenceFilter
    exact List.filter_congr (fun r _ =>
      keepDecision_proj_congr _ _ (definition_map_proj_congr defs g) r)
  · exact fun m r => keepDecision_last_match m r

/-! ## Byte offsets, line/column lookup, loc_to_range
(src/src/references/parser/collector.rs) -/

/-- Byte-offset span of an AST node (`lib_ruby_parser::Loc`), end exclusive. -/
structure Loc where
  lbegin : Nat
  lend : Nat
deriving DecidableEq, Repr

/-- Walk of the external `line_col::LineColLookup`: starting at line 1,
column 1, advance over the first `i` characters, resetting the column at
each newline.  `lineColAux s i row col` returns the 1-based position. -/
def lineColAux : List Char → Nat → Nat → Nat → Nat × Nat
  | _, 0, row, col => (row, col)
  | [], _ + 1, row, col => (row, col)
  | ch :: rest, i + 1, row, col =>
      if ch = '\n' then lineColAux rest i (row + 1) 1
      else lineColAux rest i row (col + 1)

/-- Models `LineColLookup::get`: the 1-based line and column of byte offset
`idx` in the file contents (`get(0) = (1, 1)`). -/
def lineColGet (contents : List Char) (idx : Nat) : Nat × Nat :=
  lineColAux contents idx 1 1

/-- Mirrors `loc_to_range`: look up begin and end offsets, decrement the
START column by one, leave the end column as looked up. -/
def loc_to_range (contents : List Char) (loc : Loc) : Range :=
  let s := lineColGet contents loc.lbegin
  let e := lineColGet contents loc.lend
  { start_row := s.1, start_col := s.2 - 1, end_row := e.1, end_col := e.2 }

/-- Independent specification: 1-based row of a byte offset is one plus the
number of newlines strictly before it. -/
def rowOfOffset (s : List Char) (i : Nat) : Nat :=
  1 + (s.take i).count '\n'

/-- Independent specification: 0-based column of a byte offset is the number
of characters between the last newline before it and the offset. -/
def colOfOffset (s : List Char) (i : Nat) : Nat :=
  ((s.take i).reverse.takeWhile (fun c => !(c == '\n'))).length

theorem takeWhile_append_single {α : Type} (p : α → Bool) (xs : List α) (c : α) :
    (xs ++ [c]).takeWhile p =
      if xs.all p then xs ++ (if p c then [c] else []) else xs.takeWhile p := by
  induction xs with
  | nil =>
      simp only [List.nil_append, List.all_nil, if_true]
      cases hc : p c <;> simp [List.takeWhile, hc]
  | cons x t ih =>
      simp only [List.cons_append, List.all_cons]
      cases hx : p x with
      | true =>
          simp only [Bool.true_and]
          rw [List.takeWhile_cons, if_pos hx, ih, List.takeWhile_cons, if_pos hx]
          by_cases ht : t.all p
          · simp [ht]
          · simp [ht]
      | false =>
          simp only [Bool.false_and]
          rw [List.takeWhile_cons, if_neg (by simp [hx]), List.takeWhile_cons,
            if_neg (by simp [hx])]
          simp [hx]

theorem count_zero_all_ne (l : List Char) :
    l.count '\n' = 0 ↔ l.all (fun c => !(c == '\n')) := by
  induction l with
  | nil => simp
  | cons c t ih =>
      rw [List.all_cons]
      by_cases hc : c = '\n'
      · subst hc
        simp [List.count_cons]
      · rw [List.count_cons]
        simp only [beq_iff_eq, hc, if_false]
        simpa [hc] using ih

theorem colOfOffset_of_count_zero (s : List Char) (i : Nat) (hi : i ≤ s.length)
    (h : (s.take i).count '\n' = 0) : colOfOffset s i = i := by
  unfold colOfOffset
  have hall : (s.take i).all (fun c => !(c == '\n')) := (count_zero_all_ne _).mp h
  have hall' : (s.take i).reverse.all (fun c => !(c == '\n')) := by
    simpa [List.all_reverse] using hall
  rw [List.takeWhile_eq_self_iff.mpr ?hp]
  · simp [List.length_reverse, List.length_take, Nat.min_eq_left hi]
  · intro a ha
    exact List.all_eq_true.mp hall' a ha

theorem lineColAux_characterize (s : List Char) :
    ∀ (i row col : Nat), i ≤ s.length →
      lineColAux s i row col =
        (row + (s.take i).count '\n',
         if (s.take i).count '\n' = 0 then col + i else colOfOffset s i + 1) := by
  induction s with
  | nil =>
      intro i row col hi
      have hz : i = 0 := by simpa using hi
      subst hz
      simp [lineColAux]
  | cons c rest ih =>
      intro i row col hi
      cases i with
      | zero => simp [lineColAux]
      | succ j =>
          have hj : j ≤ rest.length := by simpa using hi
          rw [List.take_succ_cons]
          by_cases hc : c = '\n'
          · subst hc
            rw [show lineColAux ('\n' :: rest) (j + 1) row col
                  = lineColAux rest j (row + 1) 1 from by simp [lineColAux]]
            rw [ih j (row + 1) 1 hj]
            have hcount : ('\n' :: rest.take j).count '\n' = (rest.take j).count '\n' + 1 := by
              simp [List.count_cons]
            rw [hcount]
            have hne : ¬((rest.take j).count '\n' + 1 = 0) := by omega
            rw [if_neg hne]
            have hcol : colOfOffset ('\n' :: rest) (j + 1)
                = if (rest.take j).count '\n' = 0 then j else colOfOffset rest j := by
              unfold colOfOffset
              rw [List.take_succ_cons, List.reverse_cons, takeWhile_append_single]
              by_cases hz : (rest.take j).count '\n' = 0
              · have hall : (rest.take j).reverse.all (fun c => !(c == '\n')) := by
                  simpa [List.all_reverse] using (count_zero_all_ne _).mp hz
                rw [if_pos hall]
                simp [hz, List.length_take, Nat.min_eq_left hj]
              · have hnall : ¬((rest.take j).reverse.all (fun c => !(c == '\n')) = true) := by
                  intro hall
                  exact hz ((count_zero_all_ne _).mpr (by simpa [List.all_reverse] using hall))
                rw [if_neg hnall]
                simp [hz]
            rw [hcol]
            by_cases hz : (rest.take j).count '\n' = 0
            · rw [if_pos hz, if_pos hz]
              congr 1 <;> omega
            · rw [if_neg hz, if_neg hz]
              congr 1
              omega
          · rw [show lineColAux (c :: rest) (j + 1) row col
                  = lineColAux rest j row (col + 1) from by simp [lineColAux, hc]]
            rw [ih j row (col + 1) hj]
            have hcount : (c :: rest.take j).count '\n' = (rest.take j).count '\n' := by
              simp [List.count_cons, hc]
            rw [hcount]
            have hcol : colOfOffset (c :: rest) (j + 1)
                = if (rest.take j).count '\n' = 0 then j + 1 else colOfOffset rest j := by
              unfold colOfOffset
              rw [List.take_succ_cons, List.reverse_cons, takeWhile_append_single]
              by_cases hz : (rest.take j).count '\n' = 0
              · have hall : (rest.take j).reverse.all (fun c => !(c == '\n')) := by
                  simpa [List.all_reverse] using (count_zero_all_ne _).mp hz
                rw [if_pos hall]
                simp [hc, hz, List.length_take, Nat.min_eq_left hj]
              · have hnall : ¬((rest.take j).reverse.all (fun c => !(c == '\n')) = true) := by
                  intro hall
                  exact hz ((count_zero_all_ne _).mpr (by simpa [List.all_reverse] using hall))
                rw [if_neg hnall]
                simp [hz]
            rw [hcol]
            by_cases hz : (rest.take j).count '\n' = 0
            · rw [if_pos hz, if_pos hz]
              congr 1
              omega
            · simp only [if_neg hz]

theorem lineColGet_characterize (s : List Char) (i : Nat) (hi : i ≤ s.length) :
    lineColGet s i = (rowOfOffset s i, colOfOffset s i + 1) := by
  unfold lineColGet rowOfOffset
  rw [lineColAux_characterize s i 1 1 hi]
  by_cases hz : (s.take i).count '\n' = 0
  · rw [if_pos hz, colOfOffset_of_count_zero s i hi hz]
    congr 1
    omega
  · rw [if_neg hz]

/-- C9 is false on the code: with contents `Bar` and the exclusive span of
bytes 0..3, the emitted range has `end_col = 4`, the 1-based column of the end
offset, whereas the 0-based column of that offset (what the claim requires for
the end position) is 3: the end column is not 0-based. -/
theorem c9_counterexample :
    colOfOffset ("Bar".toList) 3 = 3
      ∧ loc_to_range ("Bar".toList) ⟨0, 3⟩
          = { start_row := 1, start_col := 0, end_row := 1, end_col := 4 }
      ∧ (loc_to_range ("Bar".toList) ⟨0, 3⟩).end_col ≠ colOfOffset ("Bar".toList) 3 := by
  refine ⟨by decide, by decide, by decide⟩

/-- C9 (amended): every range is produced by `loc_to_range`, which maps byte
offsets through the line/column lookup of the file contents; rows are 1-based
at both ends and the span is inclusive-exclusive in offsets, but only the
START column is 0-based (the lookup's column is decremented by one at the
start only), while the END column is the 1-based column of the exclusive end
offset, i.e. its 0-based column plus one. -/
theorem c9_amended_loc_to_range (contents : List Char) (loc : Loc)
    (hb : loc.lbegin ≤ contents.length) (he : loc.lend ≤ contents.length) :
    loc_to_range contents loc =
      { start_row := rowOfOffset contents loc.lbegin,
        start_col := colOfOffset contents loc.lbegin,
        end_row := rowOfOffset contents loc.lend,
        end_col := colOfOffset contents loc.lend + 1 } := by
  unfold loc_to_range
  rw [lineColGet_characterize contents loc.lbegin hb,
      lineColGet_characterize contents loc.lend he]
  simp

/-- Witness for the amended C9 theorem at a concrete input. -/
theorem c9_amended_loc_to_range_witness :
    (0 ≤ ("Bar".toList).length ∧ 3 ≤ ("Bar".toList).length)
      ∧ loc_to_range ("Bar".toList) ⟨0, 3⟩ =
          { start_row := rowOfOffset ("Bar".toList) 0,
            start_col := colOfOffset ("Bar".toList) 0,
            end_row := rowOfOffset ("Bar".toList) 3,
            end_col := colOfOffset ("Bar".toList) 3 + 1 } :=
  ⟨⟨by decide, by decide⟩,
   c9_amended_loc_to_range ("Bar".toList) ⟨0, 3⟩ (by decide) (by decide)⟩

/-! ## AST collector (src/src/references/parser/collector.rs) -/

/-- Subset of the lib_ruby_parser AST that the collector inspects. -/
inductive RNode where
  | constN (scope : Option RNode) (cname : String) (loc : Loc)
  | cbase
  | classN (nameNode : RNode) (superclass : Option RNode) (body : Option RNode)
  | moduleN (nameNode : RNode) (body : Option RNode)
  | sendN (recv : Option RNode) (method_name : String) (args : List RNode) (loc : Loc)
  | casgnN (scope : Option RNode) (cname : String) (value : Option RNode) (loc : Loc)
  | symN (sname : String)
  | strN (sval : String)
  | kwargsN (pairs : List RNode)
  | pairN (key : RNode) (value : RNode)
  | lvarN (vname : String)
  | ivarN (vname : String)
  | selfN
  | beginN (stmts : List RNode)

mutual

/-- Mirrors `fetch_const_name`: `Const` resolves via its scope chain, `Cbase`
is the empty string, everything else is metaprogramming and fails. -/
def fetch_const_name : RNode → Except Unit String
  | .constN scope cname _ => fetch_const_const_name scope cname
  | .cbase => .ok ""
  | _ => .error ()

/-- Mirrors `fetch_const_const_name` on a `Const` node's scope and name. -/
def fetch_const_const_name : Option RNode → String → Except Unit String
  | some s, cname =>
      match fetch_const_name s with
      | .ok parent_namespace => .ok (parent_namespace ++ "::" ++ cname)
      | .error e => .error e
  | none, cname => .ok cname

end

/-- Mirrors `get_definition_from`. -/
def get_definition_from (current_nesting : String) (parent_nesting : List String)
    (location : Range) : ParsedDefinition :=
  if parent_nesting.isEmpty then
    ⟨"::" ++ current_nesting, location⟩
  else
    ⟨"::" ++ String.intercalate "::" (parent_nesting ++ [current_nesting]), location⟩

/-- Mirrors `fetch_casgn_name`. -/
def fetch_casgn_name (scope : Option RNode) (cname : String) : Except Unit String :=
  match scope with
  | some s =>
      match fetch_const_name s with
      | .ok parent_namespace => .ok (parent_namespace ++ "::" ++ cname)
      | .error e => .error e
  | none => .ok cname

/-- Mirrors `get_constant_assignment_definition`. -/
def get_constant_assignment_definition (contents : List Char) (scope : Option RNode)
    (cname : String) (loc : Loc) (current_namespaces : List String) :
    Option ParsedDefinition :=
  match fetch_casgn_name scope cname with
  | .error _ => none
  | .ok name =>
      let fully_qualified_name :=
        if current_namespaces.isEmpty then "::" ++ name
        else "::" ++ String.intercalate "::" (current_namespaces ++ [name])
      some ⟨fully_qualified_name, loc_to_range contents loc⟩

/-- Split a character list at underscores (for snake_case words). -/
def splitUnderscore : List Char → List (List Char)
  | [] => [[]]
  | '_' :: rest => [] :: splitUnderscore rest
  | c :: rest =>
      match splitUnderscore rest with
      | h :: t => (c :: h) :: t
      | [] => [[c]]

/-- Uppercase every character of a word. -/
def upcaseString (w : String) : String := String.mk (w.toList.map Char.toUpper)

/-- Uppercase the first character of a word. -/
def capitalizeWord (w : String) : String :=
  match w.toList with
  | [] => ""
  | c :: rest => String.mk (c.toUpper :: rest)

/-- Modelled from the spec: a snake_case word becomes fully uppercased when its
uppercase form is a member of the acronym set, else merely capitalized. -/
def camelCaseWord (acronyms : List String) (w : String) : String :=
  if acronyms.contains (upcaseString w) then upcaseString w else capitalizeWord w

/-- Modelled from the spec: naive singularization covering the conventional
association forms (`companies` to `company`, trailing `s` dropped). -/
def singularize (w : String) : String :=
  let r := w.toList.reverse
  if r.take 3 = ['s', 'e', 'i'] then String.mk ((r.drop 3).reverse ++ ['y'])
  else if r.take 2 = ['s', 's'] then w
  else if r.take 1 = ['s'] then String.mk ((r.drop 1).reverse)
  else w

/-- Modelled from the spec: `inflector_shim::to_class_case` (its file is
missing from src): optionally singularize, then convert snake_case to
ClassCase honoring the acronym set. -/
def to_class_case (s : String) (shouldSingularize : Bool) (acronyms : List String) :
    String :=
  let s := if shouldSingularize then singularize s else s
  String.join ((splitUnderscore s.toList).map (fun w => camelCaseWord acronyms (String.mk w)))

/-- Mirrors `extract_class_name_from_kwargs`: the first pair whose key is the
symbol `class_name` and whose value is a string literal. -/
def extract_class_name_from_kwargs (pairs : List RNode) : Option String :=
  pairs.findSome? (fun p =>
    match p with
    | .pairN (.symN k) (.strN v) => if k == "class_name" then some v else none
    | _ => none)

/-- Mirrors `ASSOCIATION_METHOD_NAMES`. -/
def ASSOCIATION_METHOD_NAMES : List String :=
  ["has_one", "has_many", "belongs_to", "has_and_belongs_to_many"]

/-- Mirrors `get_reference_from_active_record_association`; note the source
passes an empty acronym set (`&HashSet::new()`) to `to_class_case`. -/
def get_reference_from_active_record_association (contents : List Char)
    (method_name : String) (args : List RNode) (loc : Loc)
    (current_namespaces : List String) (custom_associations : List String) :
    Option UnresolvedReference :=
  let combined_associations := custom_associations ++ ASSOCIATION_METHOD_NAMES
  let is_association := combined_associations.any (fun a => method_name == a)
  if is_association then
    let kwarg_name := args.foldl (fun acc a =>
      match a with
      | RNode.kwargsN pairs =>
          match extract_class_name_from_kwargs pairs with
          | some found => some found
          | none => acc
      | _ => acc) none
    let name := match kwarg_name with
      | some n => some n
      | none =>
          match args.head? with
          | some (RNode.symN d) => some (to_class_case d true [])
          | _ => none
    match name with
    | some unwrapped_name =>
        some ⟨unwrapped_name, current_namespaces, loc_to_range contents loc⟩
    | none => none
  else none

/-- Mirrors `SuperclassReference`. -/
structure SuperclassReference where
  name : String
  namespace_path : List String
deriving DecidableEq, Repr

/-- The mutable fields of `ReferenceCollector`. -/
structure CollectorState where
  references : List UnresolvedReference
  definitions : List ParsedDefinition
  current_namespaces : List String
  in_superclass : Bool
  superclasses : List SuperclassReference
deriving DecidableEq, Repr

/-- Mirrors `ReferenceCollector::new`. -/
def initialCollectorState : CollectorState := ⟨[], [], [], false, []⟩

mutual

/-- The collector's visitor: `on_class`, `on_module`, `on_send`, `on_casgn`
and `on_const` mirror the overridden handlers; the remaining nodes get the
default traversal.  A Rust panic (`unwrap` or `expect`) is an `Except.error`. -/
def visit (contents : List Char) (custom_associations : List String)
    (st : CollectorState) : RNode → Except String CollectorState
  | .classN nameNode superclass body =>
      match fetch_const_name nameNode with
      | .error _ => .ok st
      | .ok namesp => do
          let st1 ← match superclass with
            | some inner => do
                let s ← visit contents custom_associations
                    { st with in_superclass := true } inner
                pure { s with in_superclass := false }
            | none => pure st
          let definition_loc ← match nameNode with
            | .constN _ _ l => Except.ok l
            | _ => Except.error "panic: cannot handle other node in get_constant_node_name"
          let location := loc_to_range contents definition_loc
          let definition := get_definition_from namesp st1.current_namespaces location
          let st2 := { st1 with
            definitions := st1.definitions ++ [definition],
            references := st1.references
              ++ [(⟨definition.fully_qualified_name, st1.current_namespaces,
                    location⟩ : UnresolvedReference)] }
          let st3 := { st2 with current_namespaces := st2.current_namespaces ++ [namesp] }
          let st4 ← match body with
            | some inner => visit contents custom_associations st3 inner
            | none => pure st3
          .ok { st4 with
            current_namespaces := st4.current_namespaces.dropLast,
            superclasses := st4.superclasses.dropLast }
  | .moduleN nameNode body =>
      match fetch_const_name nameNode with
      | .error _ => .error "panic: we expect no parse errors in class and module definitions"
      | .ok namesp => do
          let definition_loc ← match nameNode with
            | .constN _ _ l => Except.ok l
            | _ => Except.error "panic: cannot handle other node in get_constant_node_name"
          let location := loc_to_range contents definition_loc
          let definition := get_definition_from namesp st.current_namespaces location
          let st2 := { st with
            definitions := st.definitions ++ [definition],
            references := st.references
              ++ [(⟨definition.fully_qualified_name, st.current_namespaces,
                    location⟩ : UnresolvedReference)] }
          let st3 := { st2 with current_namespaces := st2.current_namespaces ++ [namesp] }
          let st4 ← match body with
            | some inner => visit contents custom_associations st3 inner
            | none => pure st3
          .ok { st4 with current_namespaces := st4.current_namespaces.dropLast }
  | .sendN recv method_name args loc => do
      let st1 := match get_reference_from_active_record_association contents
          method_name args loc st.current_namespaces custom_associations with
        | some r => { st with references := st.references ++ [r] }
        | none => st
      let st2 ← visitOpt contents custom_associations st1 recv
      visitList contents custom_associations st2 args
  | .casgnN scope cname value loc =>
      let st1 := match get_constant_assignment_definition contents scope cname loc
          st.current_namespaces with
        | some d => { st with definitions := st.definitions ++ [d] }
        | none => st
      match value with
      | some v => visit contents custom_associations st1 v
      | none => .ok st1
  | .constN scope cname cloc =>
      match fetch_const_const_name scope cname with
      | .error _ => .ok st
      | .ok name =>
          let st1 := if st.in_superclass then
              { st with superclasses :=
                  st.superclasses ++ [(⟨name, st.current_namespaces⟩ : SuperclassReference)] }
            else st
          let matching_superclass := st1.superclasses.find? (fun sc => sc.name == name)
          let namespace_path := match matching_superclass with
            | some m => m.namespace_path
            | none => st1.current_namespaces.filter (fun ns =>
                ns != name || st1.superclasses.any (fun sc => sc.name == name))
          .ok { st1 with references := st1.references
              ++ [(⟨name, namespace_path, loc_to_range contents cloc⟩ : UnresolvedReference)] }
  | .beginN stmts => visitList contents custom_associations st stmts
  | .kwargsN pairs => visitList contents custom_associations st pairs
  | .pairN k v => do
      let st1 ← visit contents custom_associations st k
      visit contents custom_associations st1 v
  | .cbase => .ok st
  | .symN _ => .ok st
  | .strN _ => .ok st
  | .lvarN _ => .ok st
  | .ivarN _ => .ok st
  | .selfN => .ok st

/-- Default traversal of an optional child. -/
def visitOpt (contents : List Char) (custom_associations : List String)
    (st : CollectorState) : Option RNode → Except String CollectorState
  | some n => visit contents custom_associations st n
  | none => .ok st

/-- Default traversal of a child list, left to right. -/
def visitList (contents : List Char) (custom_associations : List String)
    (st : CollectorState) : List RNode → Except String CollectorState
  | [] => .ok st
  | n :: rest => do
      let st1 ← visit contents custom_associations st n
      visitList contents custom_associations st1 rest

end

/-- The metaprogrammed constant name `Foo.bar::Baz` (scope is a method call),
as produced by the parser for `class Foo.bar::Baz` or `module Foo.bar::Baz`. -/
def metaprogrammedName : RNode :=
  RNode.constN (some (RNode.sendN none "bar" [] ⟨7, 10⟩)) "Baz" ⟨7, 15⟩

/-- C2 counterexample: the state reached inside `class A < B` (the superclass
visit pushes one entry) followed by an inner `class C` with no superclass does
NOT preserve the superclasses stack across the inner class visit: on exit the
inner class unconditionally pops the outer class's entry. -/
theorem c2_counterexample :
    (visit [] [] { initialCollectorState with in_superclass := true }
        (RNode.constN none "B" ⟨10, 11⟩)).toOption.map (fun s => s.superclasses)
      = some [⟨"B", []⟩]
      ∧ (visit [] [] (⟨[], [], ["A"], false, [⟨"B", []⟩]⟩ : CollectorState)
          (RNode.classN (RNode.constN none "C" ⟨20, 21⟩) none none)).toOption.map
            (fun s => s.superclasses)
        = some []
      ∧ (some [] : Option (List SuperclassReference))
          ≠ some [(⟨"B", []⟩ : SuperclassReference)] := by
  refine ⟨by decide, by decide, by decide⟩

/-- C2 (amended): every `Const` visited with `in_superclass` true pushes one
entry carrying the current namespaces onto `superclasses`; but on exit a class
pops exactly ONE entry unconditionally, not the entries its superclass subtree
pushed, so the stack is preserved across a class visit exactly when that visit
nets one push: a class with a single plain-`Const` superclass and empty body
preserves the stack, while a class with no superclass pops the top entry of
whatever stack it started with. -/
theorem c2_amended_superclass_push_single_pop :
    (∀ (contents : List Char) (ca : List String) (st : CollectorState)
        (name : String) (loc : Loc),
      (visit contents ca { st with in_superclass := true }
          (RNode.constN none name loc)).map (fun s => s.superclasses)
        = .ok (st.superclasses ++ [⟨name, st.current_namespaces⟩]))
    ∧ (∀ (contents : List Char) (ca : List String) (st : CollectorState)
        (name sname : String) (loc1 loc2 : Loc),
      (visit contents ca st (RNode.classN (RNode.constN none name loc1)
          (some (RNode.constN none sname loc2)) none)).map (fun s => s.superclasses)
        = .ok st.superclasses)
    ∧ (∀ (contents : List Char) (ca : List String) (st : CollectorState)
        (name : String) (loc1 : Loc),
      (visit contents ca st (RNode.classN (RNode.constN none name loc1)
          none none)).map (fun s => s.superclasses)
        = .ok st.superclasses.dropLast) := by
  refine ⟨fun contents ca st name loc => ?_,
          fun contents ca st name sname loc1 loc2 => ?_,
          fun contents ca st name loc1 => ?_⟩
  · simp [visit, fetch_const_const_name, Except.map]
  · simp [visit, fetch_const_name, fetch_const_const_name, Except.map, Except.bind,
      bind, pure, Except.pure, List.dropLast_concat]
  · simp [visit, fetch_const_name, fetch_const_const_name, Except.map, Except.bind,
      bind, pure, Except.pure]

/-- C3 is a bug in the code: for a class whose name cannot be resolved
(metaprogramming), the collector skips the declaration and returns normally,
but for a module with the same kind of name it panics through
`expect("We expect no parse errors in class/module definitions")` instead of
skipping, contradicting the documented non-fatal handling. -/
theorem c3_module_metaprogramming_panics :
    visit [] [] initialCollectorState (RNode.moduleN metaprogrammedName none)
        = .error "panic: we expect no parse errors in class and module definitions"
      ∧ visit [] [] initialCollectorState
          (RNode.classN metaprogrammedName none none) = .ok initialCollectorState := by
  exact ⟨rfl, rfl⟩

/-- C4 is a bug in the code: the association handler passes a hardcoded EMPTY
acronym set to `to_class_case` (with a source comment `todo: pass in acronyms
here`), so `has_many :api_clients` under configured acronyms containing `API`
yields `ApiClient` instead of the `APIClient` the claim requires; the
`class_name:` keyword string is used verbatim and a call with neither form
emits nothing, as claimed. -/
theorem c4_association_acronyms_ignored :
    get_reference_from_active_record_association [] "has_many"
        [RNode.symN "api_clients"] ⟨0, 22⟩ [] []
      = some ⟨"ApiClient", [], ⟨1, 0, 1, 1⟩⟩
      ∧ to_class_case "api_clients" true ["API"] = "APIClient"
      ∧ ("ApiClient" : String) ≠ "APIClient"
      ∧ get_reference_from_active_record_association [] "belongs_to"
          [RNode.symN "firm",
           RNode.kwargsN [RNode.pairN (RNode.symN "class_name")
             (RNode.strN "Foo::Bar")]] ⟨0, 9⟩ [] []
        = some ⟨"Foo::Bar", [], ⟨1, 0, 1, 1⟩⟩
      ∧ get_reference_from_active_record_association [] "has_one"
          [RNode.lvarN "x"] ⟨0, 9⟩ [] [] = none := by
  refine ⟨by decide, by decide, by decide, by decide, by decide⟩

/-! ## Content-addressed cache (src/src/cache/cached_file.rs, src/src/cache/mod.rs)

The serialized form is modelled at the level of JSON value trees: the text
layer (`serde_json::to_string` / `from_slice`) is the external library's
faithful transport of these trees, and corrupt bytes are data that fail JSON
parsing altogether. -/

/-- A JSON document. -/
inductive Json where
  | str (s : String)
  | num (n : Nat)
  | arr (xs : List Json)
  | obj (fields : List (String × Json))

/-- Field lookup in a JSON object; unknown fields are ignored on read. -/
def jsonField (fields : List (String × Json)) (k : String) : Option Json :=
  (fields.find? (fun p => p.1 == k)).map (fun p => p.2)

/-- Derived `Serialize` for `Range`. -/
def rangeToJson (r : Range) : Json :=
  .obj [("start_row", .num r.start_row), ("start_col", .num r.start_col),
        ("end_row", .num r.end_row), ("end_col", .num r.end_col)]

/-- Derived `Serialize` for `UnresolvedReference`. -/
def unresolvedReferenceToJson (u : UnresolvedReference) : Json :=
  .obj [("name", .str u.name),
        ("namespace_path", .arr (u.namespace_path.map Json.str)),
        ("location", rangeToJson u.location)]

/-- Derived `Serialize` for `ProcessedFile`. -/
def processedFileToJson (pf : ProcessedFile) : Json :=
  .obj [("absolute_path", .str pf.absolute_path),
        ("unresolved_references",
         .arr (pf.unresolved_references.map unresolvedReferenceToJson))]

/-- Mirrors `CacheEntry` (the on-disk record). -/
structure CacheEntry where
  file_contents_digest : String
  processed_file : ProcessedFile
deriving DecidableEq, Repr

/-- Derived `Serialize` for `CacheEntry`. -/
def cacheEntryToJson (e : CacheEntry) : Json :=
  .obj [("file_contents_digest", .str e.file_contents_digest),
        ("processed_file", processedFileToJson e.processed_file)]

/-- Effectful map over a list in the `Option` monad, failing as a whole when
any element fails (serde sequence deserialization). -/
def optionMapM {α β : Type} (f : α → Option β) : List α → Option (List β)
  | [] => some []
  | a :: t => do
      let b ← f a
      let r ← optionMapM f t
      pure (b :: r)

/-- String shape check for `Deserialize`. -/
def jsonAsStr : Json → Option String
  | .str s => some s
  | _ => none

/-- Number shape check for `Deserialize`. -/
def jsonAsNum : Json → Option Nat
  | .num n => some n
  | _ => none

/-- Derived `Deserialize` for `Range`. -/
def rangeFromJson : Json → Option Range
  | .obj fields => do
      let sr ← jsonField fields "start_row" >>= jsonAsNum
      let sc ← jsonField fields "start_col" >>= jsonAsNum
      let er ← jsonField fields "end_row" >>= jsonAsNum
      let ec ← jsonField fields "end_col" >>= jsonAsNum
      pure ⟨sr, sc, er, ec⟩
  | _ => none

/-- Derived `Deserialize` for `UnresolvedReference`. -/
def unresolvedReferenceFromJson : Json → Option UnresolvedReference
  | .obj fields => do
      let name ← jsonField fields "name" >>= jsonAsStr
      let ns ← match jsonField fields "namespace_path" with
        | some (.arr xs) => optionMapM jsonAsStr xs
        | _ => none
      let loc ← match jsonField fields "location" with
        | some j => rangeFromJson j
        | none => none
      pure ⟨name, ns, loc⟩
  | _ => none

/-- Derived `Deserialize` for `ProcessedFile`. -/
def processedFileFromJson : Json → Option ProcessedFile
  | .obj fields => do
      let ap ← jsonField fields "absolute_path" >>= jsonAsStr
      let urs ← match jsonField fields "unresolved_references" with
        | some (.arr xs) => optionMapM unresolvedReferenceFromJson xs
        | _ => none
      pure ⟨ap, urs⟩
  | _ => none

/-- Derived `Deserialize` for `CacheEntry`. -/
def cacheEntryFromJson : Json → Option CacheEntry
  | .obj fields => do
      let d ← jsonField fields "file_contents_digest" >>= jsonAsStr
      let pf ← match jsonField fields "processed_file" with
        | some j => processedFileFromJson j
        | none => none
      pure ⟨d, pf⟩
  | _ => none

theorem rangeFromJson_roundtrip (r : Range) :
    rangeFromJson (rangeToJson r) = some r := rfl

theorem mapM_jsonAsStr_roundtrip (ns : List String) :
    optionMapM jsonAsStr (ns.map Json.str) = some ns := by
  induction ns with
  | nil => rfl
  | cons a t ih => simp [optionMapM, ih, jsonAsStr]

theorem unresolvedReferenceFromJson_roundtrip (u : UnresolvedReference) :
    unresolvedReferenceFromJson (unresolvedReferenceToJson u) = some u := by
  cases u with
  | mk name ns loc =>
      simp [unresolvedReferenceToJson, unresolvedReferenceFromJson, jsonField,
        jsonAsStr, mapM_jsonAsStr_roundtrip, rangeFromJson_roundtrip]

theorem mapM_unresolvedReference_roundtrip (refs : List UnresolvedReference) :
    optionMapM unresolvedReferenceFromJson (refs.map unresolvedReferenceToJson)
      = some refs := by
  induction refs with
  | nil => rfl
  | cons a t ih => simp [optionMapM, ih, unresolvedReferenceFromJson_roundtrip]

theorem processedFileFromJson_roundtrip (pf : ProcessedFile) :
    processedFileFromJson (processedFileToJson pf) = some pf := by
  cases pf with
  | mk ap urs =>
      simp [processedFileToJson, processedFileFromJson, jsonField, jsonAsStr,
        mapM_unresolvedReference_roundtrip]

theorem cacheEntryFromJson_roundtrip (e : CacheEntry) :
    cacheEntryFromJson (cacheEntryToJson e) = some e := by
  cases e with
  | mk d pf =>
      simp [cacheEntryToJson, cacheEntryFromJson, jsonField, jsonAsStr,
        processedFileFromJson_roundtrip]

/-- Data stored at a cache entry path: a JSON document, or raw bytes that are
not valid JSON at all (corruption). -/
inductive FileData where
  | jsonData (j : Json)
  | rawData (bytes : List Nat)

/-- The cache directory: newest write first, `find?` sees the newest. -/
def CacheFS := List (String × FileData)

/-- Read the file at a path, if it exists. -/
def fsRead (fs : CacheFS) (path : String) : Option FileData :=
  (fs.find? (fun p => p.1 == path)).map (fun p => p.2)

/-- `File::create` truncates and rewrites the path. -/
def fsWrite (fs : CacheFS) (path : String) (d : FileData) : CacheFS :=
  (path, d) :: fs

/-- Mirrors `EmptyCacheEntry`. -/
structure EmptyCacheEntry where
  filepath : String
  file_contents_digest : String
  file_name_digest : String
  cache_file_path : String
deriving DecidableEq, Repr

/-- Mirrors `cache_file_path_from_digest`: two-character shard directory then
the rest of the digest. -/
def cache_file_path_from_digest (cache_directory : String)
    (file_name_digest : String) : String :=
  cache_directory ++ "/" ++ String.mk (file_name_digest.toList.take 2)
    ++ "/" ++ String.mk (file_name_digest.toList.drop 2)

/-- Mirrors `EmptyCacheEntry::new`, with the md5 hexdigest abstracted as a
function parameter and the file contents passed by the caller (the Rust code
reads them from disk). -/
def emptyCacheEntry (md5 : String → String) (cache_directory : String)
    (filepath : String) (contents : String) : EmptyCacheEntry :=
  let file_name_digest := md5 filepath
  ⟨filepath, md5 contents, file_name_digest,
   cache_file_path_from_digest cache_directory file_name_digest⟩

/-- Mirrors `CacheResult`. -/
inductive CacheResult where
  | processed (pf : ProcessedFile)
  | miss (e : EmptyCacheEntry)
deriving DecidableEq, Repr

/-- Mirrors `CacheEntry::from_empty` with `read_json_file`: a missing file, a
file that does not parse as JSON, and a JSON document of the wrong shape all
yield `none` (the Rust code logs a warning and continues). -/
def cacheEntryFromEmpty (fs : CacheFS) (empty : EmptyCacheEntry) : Option CacheEntry :=
  match fsRead fs empty.cache_file_path with
  | none => none
  | some (.rawData _) => none
  | some (.jsonData j) => cacheEntryFromJson j

/-- Mirrors `CachedFile::get`. -/
def cachedFileGet (md5 : String → String) (srcFS : String → Option String)
    (fs : CacheFS) (cache_dir : String) (path : String) : Except String CacheResult :=
  match srcFS path with
  | none => .error "Failed to create cache entry"
  | some contents =>
      let empty := emptyCacheEntry md5 cache_dir path contents
      match cacheEntryFromEmpty fs empty with
      | some cache_entry =>
          if cache_entry.file_contents_digest == empty.file_contents_digest then
            .ok (.processed cache_entry.processed_file)
          else
            .ok (.miss empty)
      | none => .ok (.miss empty)

/-- Mirrors `CachedFile::write`: serialize the current contents digest and the
processed file to the entry path. -/
def cachedFileWrite (fs : CacheFS) (empty : EmptyCacheEntry)
    (pf : ProcessedFile) : CacheFS :=
  fsWrite fs empty.cache_file_path
    (.jsonData (cacheEntryToJson ⟨empty.file_contents_digest, pf⟩))

/-- C5: for a readable path whose `get` missed (the miss carrying the key
material `k`), writing a processed file through `k` and reading again while
the source contents are unchanged returns `Processed` of exactly the written
file: serialization followed by deserialization of the cache entry is the
identity on `ProcessedFile`. -/
theorem cachedFileGet_eq (md5 : String → String) (srcFS : String → Option String)
    (fs : CacheFS) (cache_dir path contents : String)
    (h : srcFS path = some contents) :
    cachedFileGet md5 srcFS fs cache_dir path =
      (match cacheEntryFromEmpty fs (emptyCacheEntry md5 cache_dir path contents) with
       | some cache_entry =>
          if cache_entry.file_contents_digest
              == (emptyCacheEntry md5 cache_dir path contents).file_contents_digest then
            .ok (.processed cache_entry.processed_file)
          else .ok (.miss (emptyCacheEntry md5 cache_dir path contents))
       | none => .ok (.miss (emptyCacheEntry md5 cache_dir path contents))) := by
  unfold cachedFileGet
  rw [h]

theorem c5_cache_roundtrip (md5 : String → String) (srcFS : String → Option String)
    (fs : CacheFS) (cache_dir path contents : String) (k : EmptyCacheEntry)
    (pf : ProcessedFile)
    (hread : srcFS path = some contents)
    (hmiss : cachedFileGet md5 srcFS fs cache_dir path = .ok (.miss k)) :
    cachedFileGet md5 srcFS (cachedFileWrite fs k pf) cache_dir path
      = .ok (.processed pf) := by
  have hk : k = emptyCacheEntry md5 cache_dir path contents := by
    rw [cachedFileGet_eq md5 srcFS fs cache_dir path contents hread] at hmiss
    cases hce : cacheEntryFromEmpty fs (emptyCacheEntry md5 cache_dir path contents) with
    | some ce =>
        rw [hce] at hmiss
        by_cases hd : (ce.file_contents_digest
            == (emptyCacheEntry md5 cache_dir path contents).file_contents_digest) = true
        · simp [hd] at hmiss
        · simp [hd] at hmiss
          exact hmiss.symm
    | none =>
        rw [hce] at hmiss
        simp at hmiss
        exact hmiss.symm
  subst hk
  rw [cachedFileGet_eq md5 srcFS _ cache_dir path contents hread]
  have hfound : cacheEntryFromEmpty
      (cachedFileWrite fs (emptyCacheEntry md5 cache_dir path contents) pf)
      (emptyCacheEntry md5 cache_dir path contents)
      = some ⟨(emptyCacheEntry md5 cache_dir path contents).file_contents_digest, pf⟩ := by
    unfold cacheEntryFromEmpty cachedFileWrite fsWrite fsRead
    simp [cacheEntryFromJson_roundtrip]
  rw [hfound]
  simp

/-- Witness for the C5 round-trip theorem at concrete inputs. -/
theorem c5_cache_roundtrip_witness :
    (fun p => if p == "a.rb" then some "body" else none) "a.rb" = some "body"
    ∧ cachedFileGet (fun s => s) (fun p => if p == "a.rb" then some "body" else none)
        [] "cache" "a.rb"
      = .ok (.miss (emptyCacheEntry (fun s => s) "cache" "a.rb" "body"))
    ∧ cachedFileGet (fun s => s) (fun p => if p == "a.rb" then some "body" else none)
        (cachedFileWrite [] (emptyCacheEntry (fun s => s) "cache" "a.rb" "body")
          ⟨"a.rb", []⟩) "cache" "a.rb"
      = .ok (.processed ⟨"a.rb", []⟩) :=
  ⟨rfl, rfl,
   c5_cache_roundtrip (fun s => s) (fun p => if p == "a.rb" then some "body" else none)
     [] "cache" "a.rb" "body" (emptyCacheEntry (fun s => s) "cache" "a.rb" "body")
     ⟨"a.rb", []⟩ rfl rfl⟩

/-- C6: for a readable path, `get` returns `Miss` (never an error), carrying
the key material derived from the path and current contents, exactly when the
cache file is absent, holds bytes that fail parsing, holds JSON of the wrong
shape, or stores a contents digest differing from the current one; otherwise
it returns `Processed` of the stored file. -/
theorem c6_cache_get_miss_characterization (md5 : String → String)
    (srcFS : String → Option String) (fs : CacheFS) (cache_dir path contents : String)
    (hread : srcFS path = some contents) :
    (fsRead fs (emptyCacheEntry md5 cache_dir path contents).cache_file_path = none →
        cachedFileGet md5 srcFS fs cache_dir path
          = .ok (.miss (emptyCacheEntry md5 cache_dir path contents)))
    ∧ (∀ bytes, fsRead fs (emptyCacheEntry md5 cache_dir path contents).cache_file_path
          = some (.rawData bytes) →
        cachedFileGet md5 srcFS fs cache_dir path
          = .ok (.miss (emptyCacheEntry md5 cache_dir path contents)))
    ∧ (∀ j, fsRead fs (emptyCacheEntry md5 cache_dir path contents).cache_file_path
          = some (.jsonData j) →
        cacheEntryFromJson j = none →
        cachedFileGet md5 srcFS fs cache_dir path
          = .ok (.miss (emptyCacheEntry md5 cache_dir path contents)))
    ∧ (∀ j ce, fsRead fs (emptyCacheEntry md5 cache_dir path contents).cache_file_path
          = some (.jsonData j) →
        cacheEntryFromJson j = some ce →
        ce.file_contents_digest
            ≠ (emptyCacheEntry md5 cache_dir path contents).file_contents_digest →
        cachedFileGet md5 srcFS fs cache_dir path
          = .ok (.miss (emptyCacheEntry md5 cache_dir path contents)))
    ∧ (∀ j ce, fsRead fs (emptyCacheEntry md5 cache_dir path contents).cache_file_path
          = some (.jsonData j) →
        cacheEntryFromJson j = some ce →
        ce.file_contents_digest
            = (emptyCacheEntry md5 cache_dir path contents).file_contents_digest →
        cachedFileGet md5 srcFS fs cache_dir path
          = .ok (.processed ce.processed_file)) := by
  have hfe : ∀ (o : Option CacheEntry),
      cacheEntryFromEmpty fs (emptyCacheEntry md5 cache_dir path contents) = o →
      cachedFileGet md5 srcFS fs cache_dir path =
        (match o with
         | some cache_entry =>
            if cache_entry.file_contents_digest
                == (emptyCacheEntry md5 cache_dir path contents).file_contents_digest then
              .ok (.processed cache_entry.processed_file)
            else .ok (.miss (emptyCacheEntry md5 cache_dir path contents))
         | none => .ok (.miss (emptyCacheEntry md5 cache_dir path contents))) := by
    intro o ho
    rw [cachedFileGet_eq md5 srcFS fs cache_dir path contents hread, ho]
  refine ⟨?_, ?_, ?_, ?_, ?_⟩
  · intro hnone
    rw [hfe none ?_]
    unfold cacheEntryFromEmpty
    rw [hnone]
  · intro bytes hraw
    rw [hfe none ?_]
    unfold cacheEntryFromEmpty
    rw [hraw]
  · intro j hjson hshape
    rw [hfe none ?_]
    unfold cacheEntryFromEmpty
    rw [hjson]
    exact hshape
  · intro j ce hjson hparse hdiff
    rw [hfe (some ce) ?_]
    · simp only [beq_iff_eq]
      rw [if_neg hdiff]
    · unfold cacheEntryFromEmpty
      rw [hjson]
      exact hparse
  · intro j ce hjson hparse heq
    rw [hfe (some ce) ?_]
    · simp only [beq_iff_eq]
      rw [if_pos heq]
    · unfold cacheEntryFromEmpty
      rw [hjson]
      exact hparse

/-- Witness for the C6 characterization: arbitrary corrupt bytes at the entry
path yield a miss, not an error. -/
theorem c6_cache_get_miss_witness :
    cachedFileGet (fun s => s) (fun p => if p == "a.rb" then some "body" else none)
        [((emptyCacheEntry (fun s => s) "cache" "a.rb" "body").cache_file_path,
          .rawData [0, 1, 2])] "cache" "a.rb"
      = .ok (.miss (emptyCacheEntry (fun s => s) "cache" "a.rb" "body")) :=
  (c6_cache_get_miss_characterization (fun s => s)
      (fun p => if p == "a.rb" then some "body" else none)
      [((emptyCacheEntry (fun s => s) "cache" "a.rb" "body").cache_file_path,
        .rawData [0, 1, 2])] "cache" "a.rb" "body" rfl).2.1 [0, 1, 2] rfl

/-! ## Constant resolver construction (src/src/zeitwerk/mod.rs) -/

/-- Mirrors `ConstantDefinition` (paths as component lists). -/
structure ConstantDefinition where
  fully_qualified_name : String
  absolute_path_of_definition : List String
deriving DecidableEq, Repr

/-- One entry of `configuration.autoload_paths`: the absolute autoload root
and its default namespace (`""` unless configuration overrides it). -/
structure AutoloadEntry where
  root : List String
  default_namespace : String
deriving DecidableEq, Repr

/-- Does the file name end in `.rb`? -/
def endsWithRb (s : String) : Bool :=
  s.toList.reverse.take 3 == ['b', 'r', '.']

/-- Whether the glob `R/**/*.rb` matches the file: the root is a proper
component prefix and the file name has the `.rb` extension. -/
def globMatch (root file : List String) : Bool :=
  root.isPrefixOf file && decide (root.length < file.length)
    && endsWithRb (file.getLastD "")

/-- One step of the `file_to_longest_path` fold: `or_insert` the first
matching root, replace it when a strictly longer one matches
(`components().count()` comparison in the source). -/
def chooseStep (file : List String) (acc : Option AutoloadEntry)
    (e : AutoloadEntry) : Option AutoloadEntry :=
  if globMatch e.root file then
    match acc with
    | none => some e
    | some a => if e.root.length > a.root.length then some e else some a
  else acc

/-- The autoload root attributed to a file: the longest matching root. -/
def chooseRoot (entries : List AutoloadEntry) (file : List String) :
    Option AutoloadEntry :=
  entries.foldl (chooseStep file) none

/-- Strip the trailing `.rb` extension (`with_extension("")` on a globbed
file). -/
def stripRb (s : String) : String := String.mk ((s.toList.reverse.drop 3).reverse)

/-- Modelled from the spec: `inflector_shim::camelize` (its file is missing
from src): each path segment's snake_case words are capitalized, words whose
uppercase form is in the acronym set stay fully uppercased, and the segments
are joined with `::`. -/
def camelize (segments : List String) (acronyms : List String) : String :=
  String.intercalate "::" (segments.map (fun seg =>
    String.join ((splitUnderscore seg.toList).map
      (fun w => camelCaseWord acronyms (String.mk w)))))

/-- Mirrors `inferred_constant_from_file`: root-relative path, extension
stripped, camelized, prefixed by the root's default namespace and `::`. -/
def inferred_constant_from_file (absolute_path root : List String)
    (acronyms : List String) (default_namespace : String) : ConstantDefinition :=
  let relative := absolute_path.drop root.length
  let relative := relative.dropLast ++ [stripRb (relative.getLastD "")]
  ⟨default_namespace ++ "::" ++ camelize relative acronyms, absolute_path⟩

/-- Mirrors `inferred_constants` over the union of the roots' glob results:
every file matched by some root is attributed to its longest matching root
and turned into a constant definition. -/
def inferred_constants (entries : List AutoloadEntry)
    (allFiles : List (List String)) (acronyms : List String) :
    List ConstantDefinition :=
  allFiles.filterMap (fun f =>
    (chooseRoot entries f).map (fun e =>
      inferred_constant_from_file f e.root acronyms e.default_namespace))

theorem chooseStep_some_char (file : List String) (acc : Option AutoloadEntry)
    (f b : AutoloadEntry) (hb : chooseStep file acc f = some b) :
    (globMatch f.root file = true → f.root.length ≤ b.root.length)
    ∧ (∀ a, acc = some a → a.root.length ≤ b.root.length)
    ∧ ((b = f ∧ globMatch f.root file = true) ∨ acc = some b) := by
  cases acc with
  | none =>
      have hb1 : (if globMatch f.root file then some f
          else (none : Option AutoloadEntry)) = some b := hb
      by_cases hm : globMatch f.root file
      · rw [if_pos hm] at hb1
        injection hb1 with hfb
        subst hfb
        exact ⟨fun _ => Nat.le_refl _, fun a ha => Option.noConfusion ha,
          Or.inl ⟨rfl, hm⟩⟩
      · rw [if_neg hm] at hb1
        exact Option.noConfusion hb1
  | some a =>
      have hb1 : (if globMatch f.root file then
          (if f.root.length > a.root.length then some f else some a)
          else some a) = some b := hb
      by_cases hm : globMatch f.root file
      · rw [if_pos hm] at hb1
        by_cases hlen : f.root.length > a.root.length
        · rw [if_pos hlen] at hb1
          injection hb1 with hfb
          subst hfb
          refine ⟨fun _ => Nat.le_refl _, fun a2 ha2 => ?_, Or.inl ⟨rfl, hm⟩⟩
          injection ha2 with ha2
          subst ha2
          omega
        · rw [if_neg hlen] at hb1
          injection hb1 with hab
          subst hab
          refine ⟨fun _ => by omega, fun a2 ha2 => ?_, Or.inr rfl⟩
          injection ha2 with ha2
          subst ha2
          omega
      · rw [if_neg hm] at hb1
        refine ⟨fun hmm => absurd hmm hm, fun a2 ha2 => ?_, Or.inr hb1⟩
        injection hb1 with hab
        injection ha2 with ha2
        subst hab
        subst ha2
        omega

theorem chooseStep_none_char (file : List String) (acc : Option AutoloadEntry)
    (f : AutoloadEntry) (h : chooseStep file acc f = none) :
    acc = none ∧ globMatch f.root file = false := by
  cases acc with
  | none =>
      have h1 : (if globMatch f.root file then some f
          else (none : Option AutoloadEntry)) = none := h
      by_cases hm : globMatch f.root file
      · rw [if_pos hm] at h1
        exact Option.noConfusion h1
      · exact ⟨rfl, by simpa using hm⟩
  | some a =>
      have h1 : (if globMatch f.root file then
          (if f.root.length > a.root.length then some f else some a)
          else some a) = none := h
      by_cases hm : globMatch f.root file
      · rw [if_pos hm] at h1
        by_cases hlen : f.root.length > a.root.length
        · rw [if_pos hlen] at h1
          exact Option.noConfusion h1
        · rw [if_neg hlen] at h1
          exact Option.noConfusion h1
      · rw [if_neg hm] at h1
        exact Option.noConfusion h1

theorem chooseRootFold_some (file : List String) :
    ∀ (entries : List AutoloadEntry) (acc : Option AutoloadEntry)
      (e : AutoloadEntry),
      entries.foldl (chooseStep file) acc = some e →
      ((e ∈ entries ∧ globMatch e.root file = true) ∨ acc = some e)
      ∧ (∀ a, acc = some a → a.root.length ≤ e.root.length)
      ∧ (∀ e2 ∈ entries, globMatch e2.root file = true →
          e2.root.length ≤ e.root.length) := by
  intro entries
  induction entries with
  | nil =>
      intro acc e h
      simp only [List.foldl_nil] at h
      refine ⟨Or.inr h, fun a ha => ?_, fun e2 h2 => by simp at h2⟩
      rw [h] at ha
      injection ha with ha
      rw [ha]
  | cons f t ih =>
      intro acc e h
      simp only [List.foldl_cons] at h
      obtain ⟨H1, H2, H3⟩ := ih (chooseStep file acc f) e h
      cases hb : chooseStep file acc f with
      | none =>
          obtain ⟨hacc, hmf⟩ := chooseStep_none_char file acc f hb
          refine ⟨?_, ?_, ?_⟩
          · cases H1 with
            | inl hm => exact Or.inl ⟨List.mem_cons_of_mem f hm.1, hm.2⟩
            | inr habs => rw [hb] at habs; exact Option.noConfusion habs
          · intro a ha
            rw [hacc] at ha
            exact Option.noConfusion ha
          · intro e2 he2 hm2
            cases he2 with
            | head => rw [hmf] at hm2; exact Bool.noConfusion hm2
            | tail _ hmem => exact H3 e2 hmem hm2
      | some b =>
          obtain ⟨hbf, hbacc, hborig⟩ := chooseStep_some_char file acc f b hb
          have hb_le_e : b.root.length ≤ e.root.length := H2 b (by rw [hb])
          refine ⟨?_, ?_, ?_⟩
          · cases H1 with
            | inl hm => exact Or.inl ⟨List.mem_cons_of_mem f hm.1, hm.2⟩
            | inr hacc2 =>
                rw [hb] at hacc2
                injection hacc2 with hbe
                subst hbe
                cases hborig with
                | inl hbf2 =>
                    exact Or.inl ⟨hbf2.1 ▸ List.mem_cons_self f t, hbf2.1 ▸ hbf2.2⟩
                | inr hacc3 => exact Or.inr hacc3
          · intro a ha
            exact Nat.le_trans (hbacc a ha) hb_le_e
          · intro e2 he2 hm2
            cases he2 with
            | head => exact Nat.le_trans (hbf hm2) hb_le_e
            | tail _ hmem => exact H3 e2 hmem hm2

theorem chooseRootFold_none (file : List String) :
    ∀ (entries : List AutoloadEntry) (acc : Option AutoloadEntry),
      entries.foldl (chooseStep file) acc = none →
        acc = none ∧ ∀ e ∈ entries, globMatch e.root file = false := by
  intro entries
  induction entries with
  | nil =>
      intro acc h
      exact ⟨h, by simp⟩
  | cons f t ih =>
      intro acc h
      simp only [List.foldl_cons] at h
      obtain ⟨hstep, hall⟩ := ih (chooseStep file acc f) h
      obtain ⟨hacc, hmf⟩ := chooseStep_none_char file acc f hstep
      refine ⟨hacc, fun e he => ?_⟩
      cases he with
      | head => exact hmf
      | tail _ hmem => exact hall e hmem

/-- C7: every globbed file is attributed to the autoload root with the
greatest component count among the matching roots, and the resulting
constant's fully qualified name is the root's default namespace, `::`, and
the camelization (honoring the acronym set) of the root-relative path with
the extension stripped. -/
theorem c7_resolver_construction (entries : List AutoloadEntry)
    (allFiles : List (List String)) (acronyms : List String) (file : List String)
    (hmem : file ∈ allFiles)
    (hsome : ∃ e ∈ entries, globMatch e.root file = true) :
    ∃ e, chooseRoot entries file = some e
      ∧ e ∈ entries ∧ globMatch e.root file = true
      ∧ (∀ e2 ∈ entries, globMatch e2.root file = true →
          e2.root.length ≤ e.root.length)
      ∧ inferred_constant_from_file file e.root acronyms e.default_namespace
          ∈ inferred_constants entries allFiles acronyms
      ∧ (inferred_constant_from_file file e.root acronyms
            e.default_namespace).fully_qualified_name
          = e.default_namespace ++ "::"
            ++ camelize ((file.drop e.root.length).dropLast
                ++ [stripRb ((file.drop e.root.length).getLastD "")]) acronyms := by
  obtain ⟨e0, he0, hm0⟩ := hsome
  cases hc : chooseRoot entries file with
  | none =>
      exfalso
      obtain ⟨_, hall⟩ := chooseRootFold_none file entries none hc
      rw [hall e0 he0] at hm0
      exact Bool.noConfusion hm0
  | some e =>
      obtain ⟨H1, _, H3⟩ := chooseRootFold_some file entries none e hc
      have hme : e ∈ entries ∧ globMatch e.root file = true := by
        cases H1 with
        | inl hm => exact hm
        | inr habs => exact Option.noConfusion habs
      refine ⟨e, rfl, hme.1, hme.2, H3, ?_, rfl⟩
      exact List.mem_filterMap.mpr ⟨file, hmem, by rw [hc]; rfl⟩

/-- Autoload entries for the C7 witness: nested roots. -/
def c7Entries : List AutoloadEntry :=
  [⟨["app", "models"], ""⟩, ⟨["app", "models", "concerns"], ""⟩]

/-- File for the C7 witness. -/
def c7File : List String := ["app", "models", "concerns", "some_api_concern.rb"]

/-- Witness for C7 at concrete inputs: the deeper root wins and the
camelization honors the acronym set. -/
theorem c7_resolver_construction_witness :
    (c7File ∈ [c7File])
    ∧ (∃ e ∈ c7Entries, globMatch e.root c7File = true)
    ∧ (∃ e, chooseRoot c7Entries c7File = some e
        ∧ e ∈ c7Entries ∧ globMatch e.root c7File = true
        ∧ (∀ e2 ∈ c7Entries, globMatch e2.root c7File = true →
            e2.root.length ≤ e.root.length)
        ∧ inferred_constant_from_file c7File e.root ["API"] e.default_namespace
            ∈ inferred_constants c7Entries [c7File] ["API"]
        ∧ (inferred_constant_from_file c7File e.root ["API"]
              e.default_namespace).fully_qualified_name
            = e.default_namespace ++ "::"
              ++ camelize ((c7File.drop e.root.length).dropLast
                  ++ [stripRb ((c7File.drop e.root.length).getLastD "")]) ["API"]) :=
  ⟨by decide, by decide,
   c7_resolver_construction c7Entries [c7File] ["API"] c7File (by decide) (by decide)⟩

/-! ## Reference builder (src/src/references/reference.rs) -/

/-- Mirrors `Reference` (extra fields as an association list). -/
structure Reference where
  constant_name : String
  relative_defining_file : Option String
  relative_referencing_file : String
  source_location : SourceLocation
  extra_fields : List (String × String)
deriving DecidableEq, Repr

/-- Modelled from the spec: the configuration fields the builder reads
(src/src/references/configuration.rs is missing from src): the absolute root
and the optional extra-reference-fields callback, which receives the
referencing path and the optional absolute defining path. -/
structure BuilderConfig where
  absolute_root : List String
  extra_reference_fields_fn :
    Option (List String → Option (List String) → List (String × String))

/-- `path.strip_prefix(absolute_root)` followed by `to_str`, failing loudly
when the root is not a component prefix. -/
def stripPrefixPath (root p : List String) : Except String String :=
  if root.isPrefixOf p then .ok (String.intercalate "/" (p.drop root.length))
  else .error "expecting strip_prefix"

/-- Effectful map in the `Except` monad, failing on the first element error
(Rust `collect::<anyhow::Result<Vec<_>>>`). -/
def exceptMapM {α β : Type} (f : α → Except String β) :
    List α → Except String (List β)
  | [] => .ok []
  | a :: t => do
      let b ← f a
      let r ← exceptMapM f t
      pure (b :: r)

/-- Mirrors `Reference::from_unresolved_reference` through
`ReferencesBuilder::build`: strip the referencing path, take the source
location from the reference's start coordinates, resolve, then emit one
reference per definition or a single unresolved-name reference. -/
def from_unresolved_reference (cfg : BuilderConfig)
    (resolve : String → List String → Option (List ConstantDefinition))
    (u : UnresolvedReference) (referencing_file_path : List String) :
    Except String (List Reference) := do
  let relative_referencing_file ← stripPrefixPath cfg.absolute_root referencing_file_path
  let source_location : SourceLocation := ⟨u.location.start_row, u.location.start_col⟩
  match resolve u.name u.namespace_path with
  | some constant_definitions =>
      exceptMapM (fun constant => do
          let rel ← stripPrefixPath cfg.absolute_root constant.absolute_path_of_definition
          let extra_fields := match cfg.extra_reference_fields_fn with
            | some f => f referencing_file_path (some constant.absolute_path_of_definition)
            | none => []
          pure (⟨constant.fully_qualified_name, some rel, relative_referencing_file,
            source_location, extra_fields⟩ : Reference))
        constant_definitions
  | none =>
      let extra_fields := match cfg.extra_reference_fields_fn with
        | some f => f referencing_file_path none
        | none => []
      pure [⟨u.name, none, relative_referencing_file, source_location, extra_fields⟩]

theorem exceptMapM_ok {α β : Type} (f : α → Except String β) (g : α → β)
    (l : List α) (h : ∀ a ∈ l, f a = .ok (g a)) :
    exceptMapM f l = .ok (l.map g) := by
  induction l with
  | nil => rfl
  | cons a t ih =>
      rw [List.map_cons]
      show (do
        let b ← f a
        let r ← exceptMapM f t
        pure (b :: r)) = Except.ok (g a :: t.map g)
      rw [h a (List.mem_cons_self a t),
        ih (fun a2 h2 => h a2 (List.mem_cons_of_mem a h2))]
      rfl

/-- C8: when the resolver returns definitions the builder emits exactly one
reference per definition, with the definition's fully qualified name, the
root-stripped defining path, and extra fields from the configured callback
(empty when none); when the resolver returns nothing it emits exactly one
reference with the raw textual name and no defining file. -/
theorem c8_reference_builder (cfg : BuilderConfig)
    (resolve : String → List String → Option (List ConstantDefinition))
    (u : UnresolvedReference) (P : List String)
    (hroot : cfg.absolute_root.isPrefixOf P = true)
    (hdefs : ∀ cd ∈ (resolve u.name u.namespace_path).getD [],
        cfg.absolute_root.isPrefixOf cd.absolute_path_of_definition = true) :
    from_unresolved_reference cfg resolve u P =
      match resolve u.name u.namespace_path with
      | some defs => .ok (defs.map (fun cd =>
          ⟨cd.fully_qualified_name,
           some (String.intercalate "/"
             (cd.absolute_path_of_definition.drop cfg.absolute_root.length)),
           String.intercalate "/" (P.drop cfg.absolute_root.length),
           ⟨u.location.start_row, u.location.start_col⟩,
           match cfg.extra_reference_fields_fn with
           | some f => f P (some cd.absolute_path_of_definition)
           | none => []⟩))
      | none => .ok [⟨u.name, none,
           String.intercalate "/" (P.drop cfg.absolute_root.length),
           ⟨u.location.start_row, u.location.start_col⟩,
           match cfg.extra_reference_fields_fn with
           | some f => f P none
           | none => []⟩] := by
  cases hres : resolve u.name u.namespace_path with
  | none =>
      unfold from_unresolved_reference stripPrefixPath
      rw [if_pos hroot, hres]
      exact rfl
  | some defs =>
      rw [hres] at hdefs
      unfold from_unresolved_reference stripPrefixPath
      rw [if_pos hroot, hres]
      exact exceptMapM_ok _ _ defs (fun cd hcd => by
        rw [if_pos (hdefs cd hcd)]
        exact rfl)

/-- Resolver stub for the C8 witness: two definitions for `Foo`, nothing else. -/
def c8Resolve : String → List String → Option (List ConstantDefinition) :=
  fun name _ =>
    if name == "Foo" then
      some [⟨"::Foo", ["root", "a", "foo.rb"]⟩, ⟨"::Foo", ["root", "b", "foo.rb"]⟩]
    else none

/-- Builder configuration for the C8 witness (no callback configured). -/
def c8Config : BuilderConfig := ⟨["root"], none⟩

/-- Unresolved reference for the C8 witness. -/
def c8Ref : UnresolvedReference := ⟨"Foo", [], ⟨3, 4, 3, 7⟩⟩

/-- Witness for C8 at concrete inputs. -/
theorem c8_reference_builder_witness :
    (c8Config.absolute_root.isPrefixOf ["root", "x", "bar.rb"] = true)
    ∧ (∀ cd ∈ (c8Resolve c8Ref.name c8Ref.namespace_path).getD [],
        c8Config.absolute_root.isPrefixOf cd.absolute_path_of_definition = true)
    ∧ from_unresolved_reference c8Config c8Resolve c8Ref ["root", "x", "bar.rb"]
      = match c8Resolve c8Ref.name c8Ref.namespace_path with
        | some defs => .ok (defs.map (fun cd =>
            ⟨cd.fully_qualified_name,
             some (String.intercalate "/"
               (cd.absolute_path_of_definition.drop c8Config.absolute_root.length)),
             String.intercalate "/"
               ((["root", "x", "bar.rb"] : List String).drop c8Config.absolute_root.length),
             ⟨c8Ref.location.start_row, c8Ref.location.start_col⟩,
             match c8Config.extra_reference_fields_fn with
             | some f => f ["root", "x", "bar.rb"] (some cd.absolute_path_of_definition)
             | none => []⟩))
        | none => .ok [⟨c8Ref.name, none,
             String.intercalate "/"
               ((["root", "x", "bar.rb"] : List String).drop c8Config.absolute_root.length),
             ⟨c8Ref.location.start_row, c8Ref.location.start_col⟩,
             match c8Config.extra_reference_fields_fn with
             | some f => f ["root", "x", "bar.rb"] none
             | none => []⟩] :=
  ⟨by decide, by decide,
   c8_reference_builder c8Config c8Resolve c8Ref ["root", "x", "bar.rb"]
     (by decide) (by decide)⟩

end RubyRefs
